import Mathlib

/-!
Shallow embedding of the n-gram Markov chain text generator
(TextGenerator in generator.py) together with theorems settling the
frozen claims about it.

Modelling conventions:
* Python dictionaries are association lists in insertion order; a
  defaultdict update is an update-or-append operation.
* Python floats are modelled by the rationals; integer counts by Nat.
* The pseudo-random source is a stream of natural numbers consumed one
  value per primitive draw; each primitive turns the head value into the
  selected index or threshold.  RandState equality is decidable so that
  concrete runs can be evaluated.
* Fallible code (list indexing that can raise IndexError) returns an
  Option, with none standing for the uncaught exception.
-/

/-- State of the injected pseudo-random source: the not yet consumed
stream values, defaulting to 0 when exhausted. -/
structure RandState where
  vals : List Nat
deriving DecidableEq, Repr

/-- Consume one value from the random source. -/
def drawNat (r : RandState) : Nat × RandState :=
  (r.vals.headD 0, ⟨r.vals.tail⟩)

/-- Model of random.choice over a non-empty list: one draw selects an
index uniformly.  Callers in the source only invoke it on non-empty
lists, so the default value is never produced there. -/
def pyChoice {α : Type} [Inhabited α] (l : List α) (r : RandState) : α × RandState :=
  let p := drawNat r
  (l.getD (p.1 % l.length) default, p.2)

/-- Model of random.randint a b (both bounds inclusive): one draw. -/
def pyRandint (a b : Nat) (r : RandState) : Nat × RandState :=
  let p := drawNat r
  (a + p.1 % (b + 1 - a), p.2)

/-- Dictionary lookup on an association list. -/
def alFind {α β : Type} [DecidableEq α] : List (α × β) → α → Option β
  | [], _ => none
  | (k, v) :: rest, k0 => if k = k0 then some v else alFind rest k0

/-- defaultdict(float) update: add v at key k, appending the key when it
is new (Python dicts keep insertion order). -/
def alAdd {α : Type} [DecidableEq α] : List (α × ℚ) → α → ℚ → List (α × ℚ)
  | [], k, v => [(k, v)]
  | (k0, w) :: rest, k, v =>
    if k0 = k then (k0, w + v) :: rest else (k0, w) :: alAdd rest k v

/-- A probability distribution over tokens, as stored in the generator:
token mapped to weight, in insertion order. -/
abbrev PDist := List (String × ℚ)

/-- A Markov chain context: the Python code keys bigram chains by a
single string and trigram chains by a pair of strings, in one dict. -/
inductive Ctx where
  | one (a : String)
  | two (a b : String)
deriving DecidableEq, Repr

/-- The nested chains dictionary: context mapped to a distribution. -/
abbrev Chains := List (Ctx × PDist)

/-- Nested defaultdict update used while accumulating chains. -/
def al2Add : Chains → Ctx → String → ℚ → Chains
  | [], c, t, v => [(c, [(t, v)])]
  | (c0, d) :: rest, c, t, v =>
    if c0 = c then (c0, alAdd d t v) :: rest else (c0, d) :: al2Add rest c t v

/-- Sum of the weights of a distribution. -/
def sumVals (d : PDist) : ℚ := (d.map Prod.snd).sum

/-- Cumulative-weight selection as performed by random.choices: walk the
entries subtracting weights until the threshold falls inside one; the
final entry absorbs any remainder. -/
def pickByCumulative : PDist → ℚ → Option String
  | [], _ => none
  | [(k, _)], _ => some k
  | (k, w) :: e :: rest, t =>
    if t < w then some k else pickByCumulative (e :: rest) (t - w)

/-- Model of TextGenerator weighted choice: empty input yields none
without touching the random source; a non-positive total weight makes
random.choices raise ValueError, which the bare except turns into a
uniform random.choice over the keys; otherwise one draw fixes a
threshold inside the total weight and cumulative selection picks. -/
def weightedChoice (choices : PDist) (r : RandState) : Option String × RandState :=
  if choices = [] then (none, r)
  else
    let total := sumVals choices
    if total ≤ 0 then
      let p := pyChoice (choices.map Prod.fst) r
      (some p.1, p.2)
    else
      let p := drawNat r
      (pickByCumulative choices (((p.1 % 1000000 : ℕ) : ℚ) / 1000000 * total), p.2)

/-- Boolean test that the first list is an initial segment of the
second. -/
def startsWithL : List Char → List Char → Bool
  | [], _ => true
  | _ :: _, [] => false
  | a :: as, b :: bs => a == b && startsWithL as bs

/-- Python str.split with a fixed non-empty separator: scan left to
right, cutting at each non-overlapping occurrence of the separator; acc
holds the characters of the current chunk in reverse.  The fuel
argument makes the recursion structural and hence kernel-reducible;
every step shortens the scanned list by at least one character, so a
fuel of the initial length never runs out before the scan ends. -/
def splitAux (sep : List Char) : ℕ → List Char → List Char → List (List Char)
  | _, [], acc => [acc.reverse]
  | 0, _ :: _, acc => [acc.reverse]
  | fuel + 1, c :: rest, acc =>
    if sep ≠ [] ∧ startsWithL sep (c :: rest) then
      acc.reverse :: splitAux sep fuel (List.drop sep.length (c :: rest)) []
    else
      splitAux sep fuel rest (c :: acc)

/-- Python s.split(sep) on strings. -/
def pySplit (sep s : String) : List String :=
  (splitAux sep.data s.data.length s.data []).map String.mk

/-- Python sep.join(parts) at the character level. -/
def joinL (sep : List Char) : List (List Char) → List Char
  | [] => []
  | [x] => x
  | x :: y :: rest => x ++ sep ++ joinL sep (y :: rest)

/-- Python sep.join(parts) on strings. -/
def pyJoin (sep : String) (parts : List String) : String :=
  String.mk (joinL sep.data (parts.map String.data))

/-- Python s.lower(). -/
def pyLower (s : String) : String := String.mk (s.data.map Char.toLower)

/-- Sentence formatting step of the source: upper-case the first
character and append a period.  The source indexes sentence[0], which
would raise IndexError on an empty string; every call site formats a
join whose first word is non-empty, so the empty case returns the empty
string as an unreachable placeholder. -/
def pyCapDot (s : String) : String :=
  match s.data with
  | [] => ""
  | c :: rest => String.mk (c.toUpper :: (rest ++ ['.']))

/-- Python substring membership test: sub occurs in s. -/
def pyContainsSub (sub s : String) : Bool :=
  (List.range (s.data.length + 1)).any (fun i => startsWithL sub.data (s.data.drop i))

/-- Model of TextGenerator frequencies-to-probabilities conversion:
empty table maps to the empty distribution; otherwise the total is
accumulated once and every count is divided by it. -/
def frequenciesToProbabilities (freqs : List (String × ℕ)) : PDist :=
  if freqs = [] then []
  else
    let total : ℕ := (freqs.map Prod.snd).sum
    freqs.map (fun e => (e.1, (e.2 : ℚ) / (total : ℚ)))

/-- One iteration of the chain-building loop: split the stored key on
the fixed delimiter; two parts accumulate under the single-token
context, three parts under the token-pair context, anything else is
ignored. -/
def chainsStep (ch : Chains) (e : String × ℕ) : Chains :=
  match pySplit "||" e.1 with
  | [p, n] => al2Add ch (Ctx.one p) n (e.2 : ℚ)
  | [p1, p2, n] => al2Add ch (Ctx.two p1 p2) n (e.2 : ℚ)
  | _ => ch

/-- Accumulation pass of the chain builder over all stored n-grams. -/
def chainsAccum (ngrams : List (String × ℕ)) : Chains :=
  ngrams.foldl chainsStep []

/-- Per-context normalization pass: the total of one context is computed
once and each continuation weight is divided by it. -/
def normalizeDist (d : PDist) : PDist :=
  d.map (fun e => (e.1, e.2 / sumVals d))

/-- Model of the Markov chain builder: accumulate grouped counts, then
normalize each context independently. -/
def buildMarkovChains (ngrams : List (String × ℕ)) : Chains :=
  (chainsAccum ngrams).map (fun e => (e.1, normalizeDist e.2))

/-- chains.get(context, {}) of the source. -/
def lookupCtx (ch : Chains) (c : Ctx) : PDist := (alFind ch c).getD []

/-- chains.get(current, {}) where current may be None (the seed draw can
fail): a missing key yields the empty distribution. -/
def optLookup1 (ch : Chains) (cur : Option String) : PDist :=
  match cur with
  | some s => lookupCtx ch (Ctx.one s)
  | none => []

/-- The in-memory generation session: derived probability models and
chains plus the raw word unigram table (used by the anchor vocabulary
check) and the sentence statistics. -/
structure Session where
  charUnigramProbs : PDist
  charBigramChains : Chains
  charTrigramChains : Chains
  wordUnigrams : List (String × ℕ)
  wordUnigramProbs : PDist
  wordBigramChains : Chains
  wordTrigramChains : Chains
  sentenceStats : Option (List (ℕ × ℕ))
deriving DecidableEq

/-- Session construction from the six loaded frequency tables and the
sentence statistics, mirroring the model-building constructor step. -/
def mkSession (charUni charBi charTri wordUni wordBi wordTri : List (String × ℕ))
    (stats : Option (List (ℕ × ℕ))) : Session :=
  { charUnigramProbs := frequenciesToProbabilities charUni
    charBigramChains := buildMarkovChains charBi
    charTrigramChains := buildMarkovChains charTri
    wordUnigrams := wordUni
    wordUnigramProbs := frequenciesToProbabilities wordUni
    wordBigramChains := buildMarkovChains wordBi
    wordTrigramChains := buildMarkovChains wordTri
    sentenceStats := stats }

/-- Sentence length sampling: with no statistics (or a missing length
distribution) fall back to randint 5 20; otherwise expand the length
distribution into a weighted population and draw uniformly, with the
same fallback when the population is empty. -/
def sampleSentenceLength (stats : Option (List (ℕ × ℕ))) (r : RandState) : ℕ × RandState :=
  match stats with
  | none => pyRandint 5 20 r
  | some dist =>
    let lengths := (dist.map (fun p => List.replicate p.2 p.1)).flatten
    if lengths ≠ [] then pyChoice lengths r else pyRandint 5 20 r

/-- Append an item to a generated token list only when it is truthy in
the Python sense: present and not the empty string. -/
def truthyApp (ws : List String) (w : Option String) : List String :=
  match w with
  | some s => if s ≠ "" then ws ++ [s] else ws
  | none => ws

/-- The fixed 27-symbol alphabet of zero-order generation. -/
def char0Alphabet : List Char := "abcdefghijklmnopqrstuvwxyz ".data

/-- Loop of zero-order generation: one uniform choice per position. -/
def genChar0Go : ℕ → List Char → RandState → List Char × RandState
  | 0, acc, r => (acc, r)
  | n + 1, acc, r =>
    let p := pyChoice char0Alphabet r
    genChar0Go n (acc ++ [p.1]) p.2

/-- Model of generate char 0: length uniform characters joined. -/
def genChar0 (length : ℕ) (r : RandState) : String × RandState :=
  let p := genChar0Go length [] r
  (String.mk p.1, p.2)

/-- Loop of first-order character generation: each position draws from
the unigram distribution independently, truthy draws are kept. -/
def genChar1Go (sess : Session) : ℕ → List String → RandState → List String × RandState
  | 0, acc, r => (acc, r)
  | n + 1, acc, r =>
    let p := weightedChoice sess.charUnigramProbs r
    genChar1Go sess n (truthyApp acc p.1) p.2

/-- Model of generate char 1. -/
def genChar1 (sess : Session) (length : ℕ) (r : RandState) : String × RandState :=
  let p := genChar1Go sess length [] r
  (pyJoin "" p.1, p.2)

/-- Extension loop of generate char 2: while the target is not reached,
draw from the bigram chain of the current character, fall back to the
unigram distribution, append a truthy draw and advance, otherwise stop
early. -/
def genChar2Loop (sess : Session) (length : ℕ) (result : List String)
    (current : Option String) (r : RandState) : List String × RandState :=
  if h : result.length < length then
    let d1 := weightedChoice (optLookup1 sess.charBigramChains current) r
    let d2 :=
      match d1.1 with
      | some x => (some x, d1.2)
      | none => weightedChoice sess.charUnigramProbs d1.2
    match d2.1 with
    | some s =>
      if s ≠ "" then genChar2Loop sess length (result ++ [s]) (some s) d2.2
      else (result, d2.2)
    | none => (result, d2.2)
  else (result, r)
termination_by length - result.length
decreasing_by simp only [List.length_append, List.length_cons, List.length_nil]; omega

/-- Model of generate char 2: an empty bigram chain delegates the whole
call to generate char 1; otherwise seed one unigram character, extend
with the bigram loop, and truncate to the first length items. -/
def genChar2 (sess : Session) (length : ℕ) (r : RandState) : String × RandState :=
  if sess.charBigramChains = [] then genChar1 sess length r
  else
    let d := weightedChoice sess.charUnigramProbs r
    let p := genChar2Loop sess length (truthyApp [] d.1) d.1 d.2
    (pyJoin "" (p.1.take length), p.2)

/-- Extension loop of generate char 3: the context is the pair of the
last two generated items; the source indexes result[-2] and result[-1],
which raises IndexError when fewer than two items exist (modelled as
none).  The draw cascades from the trigram chain to the bigram chain of
the last item to the unigram distribution. -/
def genChar3Loop (sess : Session) (length : ℕ) (result : List String)
    (r : RandState) : Option (List String × RandState) :=
  if h : result.length < length then
    match result.reverse with
    | last :: slast :: _ =>
      let d1 := weightedChoice (lookupCtx sess.charTrigramChains (Ctx.two slast last)) r
      let d2 :=
        match d1.1 with
        | some x => (some x, d1.2)
        | none => weightedChoice (lookupCtx sess.charBigramChains (Ctx.one last)) d1.2
      let d3 :=
        match d2.1 with
        | some x => (some x, d2.2)
        | none => weightedChoice sess.charUnigramProbs d2.2
      match d3.1 with
      | some s =>
        if s ≠ "" then genChar3Loop sess length (result ++ [s]) d3.2
        else some (result, d3.2)
      | none => some (result, d3.2)
    | _ => none
  else some (result, r)
termination_by length - result.length
decreasing_by simp only [List.length_append, List.length_cons, List.length_nil]; omega

/-- Model of generate char 3: an empty trigram chain delegates the whole
call to generate char 2; otherwise seed two unigram characters, extend
with the trigram loop, and truncate to the first length items. -/
def genChar3 (sess : Session) (length : ℕ) (r : RandState) :
    Option (String × RandState) :=
  if sess.charTrigramChains = [] then some (genChar2 sess length r)
  else
    let d1 := weightedChoice sess.charUnigramProbs r
    let d2 := weightedChoice sess.charUnigramProbs d1.2
    match genChar3Loop sess length (truthyApp (truthyApp [] d1.1) d2.1) d2.2 with
    | some p => some (pyJoin "" (p.1.take length), p.2)
    | none => none

/-- Inner word loop of generate word 1: a fixed number of independent
unigram draws, keeping the truthy ones. -/
def drawUnigramWordsGo (sess : Session) : ℕ → List String → RandState → List String × RandState
  | 0, acc, r => (acc, r)
  | n + 1, acc, r =>
    let p := weightedChoice sess.wordUnigramProbs r
    drawUnigramWordsGo sess n (truthyApp acc p.1) p.2

/-- Shared sentence formatting: words joined by single spaces, first
character upper-cased, terminal period appended. -/
def sentenceFormat (ws : List String) : String := pyCapDot (pyJoin " " ws)

/-- Sentence loop of generate word 1: up to 100 attempts to accumulate
the requested number of sentences; an attempt with no words adds
nothing. -/
def genWord1Loop (sess : Session) (num : ℕ) (sentences : List String)
    (attempts : ℕ) (r : RandState) : List String × RandState :=
  if h : sentences.length < num ∧ attempts < 100 then
    let q := sampleSentenceLength sess.sentenceStats r
    let p := drawUnigramWordsGo sess q.1 [] q.2
    let sentences2 := if p.1 ≠ [] then sentences ++ [sentenceFormat p.1] else sentences
    genWord1Loop sess num sentences2 (attempts + 1) p.2
  else (sentences, r)
termination_by 100 - attempts
decreasing_by omega

/-- Walk step of the anchor sentence synthesis: with at least two
context words, draw from the word bigram chain dictionary keyed by the
pair of the last two context words; with fewer, draw from the word
unigram distribution. -/
def anchorWalkStep (sess : Session) (ws : List String) (r : RandState) :
    Option String × RandState :=
  if 2 ≤ ws.length then
    weightedChoice
      (lookupCtx sess.wordBigramChains
        (Ctx.two (ws.getD (ws.length - 2) "") (ws.getD (ws.length - 1) ""))) r
  else weightedChoice sess.wordUnigramProbs r

/-- A fixed number of walk steps, keeping truthy draws. -/
def anchorWalkGo (sess : Session) : ℕ → List String → RandState → List String × RandState
  | 0, ws, r => (ws, r)
  | n + 1, ws, r =>
    let p := anchorWalkStep sess ws r
    anchorWalkGo sess n (truthyApp ws p.1) p.2

/-- Model of the anchor sentence synthesis: walk backward from the
anchor for randint 2 5 steps, walk forward for the remaining word
budget, then format reversed backward words followed by the forward
words without their leading anchor copy. -/
def genAroundAnchor (sess : Session) (anchor : String) (numWords : ℕ)
    (r : RandState) : Option String × RandState :=
  let b := pyRandint 2 5 r
  let pw := anchorWalkGo sess b.1 [anchor] b.2
  let nw := anchorWalkGo sess (numWords - b.1) [anchor] pw.2
  let allWords := pw.1.reverse ++ nw.1.tail
  if allWords ≠ [] then (some (sentenceFormat allWords), nw.2) else (none, nw.2)

/-- Bounded retry loop of anchor integration: each attempt requires the
anchor to be a key of the raw word unigram table, synthesizes a
candidate of freshly sampled length, and on a truthy candidate that
contains the anchor case-insensitively replaces the sentence at a
uniformly drawn index and stops. -/
def anchorAttempts (sess : Session) (anchor : String) :
    ℕ → List String → RandState → List String × RandState
  | 0, sentences, r => (sentences, r)
  | n + 1, sentences, r =>
    if (alFind sess.wordUnigrams anchor).isSome then
      let q := sampleSentenceLength sess.sentenceStats r
      let g := genAroundAnchor sess anchor q.1 q.2
      match g.1 with
      | some c =>
        if c ≠ "" ∧ pyContainsSub (pyLower anchor) (pyLower c) then
          let i := pyRandint 0 (sentences.length - 1) g.2
          (sentences.set i.1 c, i.2)
        else anchorAttempts sess anchor n sentences g.2
      | none => anchorAttempts sess anchor n sentences g.2
    else anchorAttempts sess anchor n sentences r

/-- Model of anchor word integration: no requested anchors or no
missing anchors return the text as is; otherwise the text is split into
sentences, each missing anchor gets at most 10 synthesis attempts, and
the sentences are joined back. -/
def integrateAnchorWords (sess : Session) (text : String) (anchors : List String)
    (numSentences : ℕ) (r : RandState) : String × RandState :=
  if anchors = [] then (text, r)
  else
    let missing := anchors.filter (fun w => ! pyContainsSub (pyLower w) (pyLower text))
    if missing = [] then (text, r)
    else
      let sentences := pySplit ". " text
      let p := missing.foldl (fun p anchor => anchorAttempts sess anchor 10 p.1 p.2)
        (sentences, r)
      (pyJoin ". " p.1, p.2)

/-- Model of generate word 1: sample sentences from unigram draws, join
them with spaces, then integrate anchors when any were requested. -/
def genWord1 (sess : Session) (numSentences : ℕ) (anchors : List String)
    (r : RandState) : String × RandState :=
  let p := genWord1Loop sess numSentences [] 0 r
  let result := pyJoin " " p.1
  if anchors ≠ [] then integrateAnchorWords sess result anchors numSentences p.2
  else (result, p.2)

/-- Per-sentence extension loop of generate word 2: bigram chain of the
current word with unigram fallback, stopping early on a falsy draw. -/
def genWord2SentLoop (sess : Session) (slen : ℕ) (words : List String)
    (current : Option String) (r : RandState) : List String × RandState :=
  if h : words.length < slen then
    let d1 := weightedChoice (optLookup1 sess.wordBigramChains current) r
    let d2 :=
      match d1.1 with
      | some x => (some x, d1.2)
      | none => weightedChoice sess.wordUnigramProbs d1.2
    match d2.1 with
    | some s =>
      if s ≠ "" then genWord2SentLoop sess slen (words ++ [s]) (some s) d2.2
      else (words, d2.2)
    | none => (words, d2.2)
  else (words, r)
termination_by slen - words.length
decreasing_by simp only [List.length_append, List.length_cons, List.length_nil]; omega

/-- Sentence loop of generate word 2: one sentence per iteration, each
seeded by a unigram draw. -/
def genWord2Go (sess : Session) : ℕ → List String → RandState → List String × RandState
  | 0, sentences, r => (sentences, r)
  | n + 1, sentences, r =>
    let q := sampleSentenceLength sess.sentenceStats r
    let d := weightedChoice sess.wordUnigramProbs q.2
    let p := genWord2SentLoop sess q.1 (truthyApp [] d.1) d.1 d.2
    genWord2Go sess n
      (if p.1 ≠ [] then sentences ++ [sentenceFormat p.1] else sentences) p.2

/-- Model of generate word 2: an empty word bigram chain delegates the
whole call to generate word 1. -/
def genWord2 (sess : Session) (numSentences : ℕ) (anchors : List String)
    (r : RandState) : String × RandState :=
  if sess.wordBigramChains = [] then genWord1 sess numSentences anchors r
  else
    let p := genWord2Go sess numSentences [] r
    let result := pyJoin " " p.1
    if anchors ≠ [] then integrateAnchorWords sess result anchors numSentences p.2
    else (result, p.2)

/-- Per-sentence extension loop of generate word 3: the context is the
pair of the last two words, indexing that raises IndexError (none) when
fewer than two exist; draws cascade trigram, bigram, unigram. -/
def genWord3SentLoop (sess : Session) (slen : ℕ) (words : List String)
    (r : RandState) : Option (List String × RandState) :=
  if h : words.length < slen then
    match words.reverse with
    | last :: slast :: _ =>
      let d1 := weightedChoice (lookupCtx sess.wordTrigramChains (Ctx.two slast last)) r
      let d2 :=
        match d1.1 with
        | some x => (some x, d1.2)
        | none => weightedChoice (lookupCtx sess.wordBigramChains (Ctx.one last)) d1.2
      let d3 :=
        match d2.1 with
        | some x => (some x, d2.2)
        | none => weightedChoice sess.wordUnigramProbs d2.2
      match d3.1 with
      | some s =>
        if s ≠ "" then genWord3SentLoop sess slen (words ++ [s]) d3.2
        else some (words, d3.2)
      | none => some (words, d3.2)
    | _ => none
  else some (words, r)
termination_by slen - words.length
decreasing_by simp only [List.length_append, List.length_cons, List.length_nil]; omega

/-- Sentence loop of generate word 3: one sentence per iteration, each
seeded by two unigram draws. -/
def genWord3Go (sess : Session) : ℕ → List String → RandState → Option (List String × RandState)
  | 0, sentences, r => some (sentences, r)
  | n + 1, sentences, r =>
    let q := sampleSentenceLength sess.sentenceStats r
    let d1 := weightedChoice sess.wordUnigramProbs q.2
    let d2 := weightedChoice sess.wordUnigramProbs d1.2
    match genWord3SentLoop sess q.1 (truthyApp (truthyApp [] d1.1) d2.1) d2.2 with
    | some p =>
      genWord3Go sess n
        (if p.1 ≠ [] then sentences ++ [sentenceFormat p.1] else sentences) p.2
    | none => none

/-- Model of generate word 3: an empty word trigram chain delegates the
whole call to generate word 2. -/
def genWord3 (sess : Session) (numSentences : ℕ) (anchors : List String)
    (r : RandState) : Option (String × RandState) :=
  if sess.wordTrigramChains = [] then some (genWord2 sess numSentences anchors r)
  else
    match genWord3Go sess numSentences [] r with
    | some p =>
      let result := pyJoin " " p.1
      some (if anchors ≠ [] then integrateAnchorWords sess result anchors numSentences p.2
        else (result, p.2))
    | none => none

/-- Python exceptions surfaced by the generation interface. -/
inductive PyErr where
  | valueError (msg : String)
  | indexError
deriving DecidableEq, Repr

/-- The seven enumerated generation levels. -/
def validLevels : List String :=
  ["char-0", "char-1", "char-2", "char-3", "word-1", "word-2", "word-3"]

/-- Model of the generate dispatch: the seven known levels dispatch to
their generation procedure, every other level raises ValueError with a
message naming the level.  The session is read-only throughout, so the
loaded tables and models are unchanged by construction. -/
def pyGenerate (sess : Session) (level : String) (length numSentences : ℕ)
    (anchors : List String) (r : RandState) : Except PyErr (String × RandState) :=
  if level = "char-0" then .ok (genChar0 length r)
  else if level = "char-1" then .ok (genChar1 sess length r)
  else if level = "char-2" then .ok (genChar2 sess length r)
  else if level = "char-3" then
    match genChar3 sess length r with
    | some p => .ok p
    | none => .error .indexError
  else if level = "word-1" then .ok (genWord1 sess numSentences anchors r)
  else if level = "word-2" then .ok (genWord2 sess numSentences anchors r)
  else if level = "word-3" then
    match genWord3 sess numSentences anchors r with
    | some p => .ok p
    | none => .error .indexError
  else .error (.valueError ("Invalid level: " ++ level ++ ". Must be char-0 through word-3"))

/-- The draw cascade of one extension step of generate char 3, as a
function of the pair of preceding items: trigram chain at the pair,
then bigram chain at the last item, then the unigram distribution. -/
def char3Next (sess : Session) (slast last : String) (r : RandState) :
    Option String × RandState :=
  let d1 := weightedChoice (lookupCtx sess.charTrigramChains (Ctx.two slast last)) r
  let d2 :=
    match d1.1 with
    | some x => (some x, d1.2)
    | none => weightedChoice (lookupCtx sess.charBigramChains (Ctx.one last)) d1.2
  match d2.1 with
  | some x => (some x, d2.2)
  | none => weightedChoice sess.charUnigramProbs d2.2

/-- Concrete session whose trigram chain contains context a b. -/
def sessC4hit : Session := mkSession [] [] [("a||b||z", 1)] [] [] [] none

/-- Concrete session whose trigram chain misses context a b while the
bigram chain serves context b. -/
def sessC4miss : Session := mkSession [] [("b||c", 2)] [("x||y||z", 1)] [] [] [] none

/-- Concrete session where both the trigram and bigram lookups miss. -/
def sessC4none : Session := mkSession [("u", 1)] [] [("x||y||z", 1)] [] [] [] none

/-- The walk of the claimed anchor synthesis description, tracking only
the words built around the anchor: each step draws from the word bigram
chain dictionary looked up by the current two-word context whenever at
least two context words exist (the anchor plus the built words), and
from the unigram distribution only when fewer than two exist; truthy
draws are appended. -/
def specAnchorWalk (sess : Session) (anchor : String) :
    ℕ → List String → RandState → List String × RandState
  | 0, built, r => (built, r)
  | n + 1, built, r =>
    let p := anchorWalkStep sess (anchor :: built) r
    specAnchorWalk sess anchor n (truthyApp built p.1) p.2

/-- Concrete session used to exercise anchor synthesis: the word hello
is the whole vocabulary and sentence lengths are always 3. -/
def sessC5 : Session := mkSession [] [] [] [("hello", 1)] [] [] (some [(3, 1)])

/-- The accumulation target of one stored n-gram entry: the context and
continuation its count is added under, if any. -/
def targetsOf (key : String) : Option (Ctx × String) :=
  match pySplit "||" key with
  | [p, n] => some (Ctx.one p, n)
  | [p1, p2, n] => some (Ctx.two p1 p2, n)
  | _ => none

/-- Summed count of the entries accumulating under one pair. -/
def rawPairCount (ngrams : List (String × ℕ)) (c : Ctx) (t : String) : ℚ :=
  (ngrams.map (fun e => if targetsOf e.1 = some (c, t) then (e.2 : ℚ) else 0)).sum

/-- Summed count of the entries accumulating under one context. -/
def rawCtxTotal (ngrams : List (String × ℕ)) (c : Ctx) : ℚ :=
  (ngrams.map (fun e =>
    match targetsOf e.1 with
    | some (c0, _) => if c0 = c then (e.2 : ℚ) else 0
    | none => 0)).sum

/-- Sum of the weights stored under one context of the chains. -/
def innerSumAt (ch : Chains) (c : Ctx) : ℚ := sumVals ((alFind ch c).getD [])

/-- Nested lookup in the chains dictionary. -/
def lookup2 (ch : Chains) (c : Ctx) (t : String) : Option ℚ :=
  (alFind ch c).bind (fun d => alFind d t)

/-- Some entry of the table accumulates under the given pair. -/
def touchedB (l : List (String × ℕ)) (c : Ctx) (t : String) : Bool :=
  l.any (fun e => targetsOf e.1 == some (c, t))

/-- Claim-side count of one (context, continuation) pair: the summed
count of the keys that split into exactly that two-part form. -/
def pairCount (ngrams : List (String × ℕ)) (a t : String) : ℚ :=
  ((ngrams.filter (fun e => pySplit "||" e.1 == [a, t])).map
    (fun e => (e.2 : ℚ))).sum

/-- Claim-side total of one context: the summed count of the two-part
keys whose first part is the context. -/
def contextTotal (ngrams : List (String × ℕ)) (a : String) : ℚ :=
  ((ngrams.filter (fun e =>
    match pySplit "||" e.1 with
    | [p, _] => p == a
    | _ => false)).map (fun e => (e.2 : ℚ))).sum

/-- The draw cascade of one extension step of generate char 2: bigram
chain of the current item, then the unigram distribution. -/
def char2Next (sess : Session) (current : Option String) (r : RandState) :
    Option String × RandState :=
  let d1 := weightedChoice (optLookup1 sess.charBigramChains current) r
  match d1.1 with
  | some x => (some x, d1.2)
  | none => weightedChoice sess.charUnigramProbs d1.2

/-! Helper lemmas -/

theorem pickByCumulative_mem :
    ∀ (d : PDist) (t : ℚ), d ≠ [] →
      ∃ k, pickByCumulative d t = some k ∧ k ∈ d.map Prod.fst := by
  intro d
  induction d with
  | nil => intro t h; exact absurd rfl h
  | cons e rest ih =>
    intro t _
    obtain ⟨k, w⟩ := e
    cases rest with
    | nil => exact ⟨k, rfl, by simp⟩
    | cons e2 rest2 =>
      by_cases hlt : t < w
      · exact ⟨k, by simp [pickByCumulative, hlt], by simp⟩
      · obtain ⟨k2, hk2, hmem⟩ := ih (t - w) (by simp)
        exact ⟨k2, by simp [pickByCumulative, hlt, hk2],
          by rw [List.map_cons]; exact List.mem_cons_of_mem _ hmem⟩

theorem pyChoice_mem {α : Type} [Inhabited α] (l : List α) (r : RandState)
    (h : l ≠ []) : (pyChoice l r).1 ∈ l := by
  have hpos : 0 < l.length := List.length_pos.mpr h
  have hlt : (drawNat r).1 % l.length < l.length := Nat.mod_lt _ hpos
  simp only [pyChoice]
  rw [List.getD_eq_getElem l default hlt]
  exact List.getElem_mem hlt

theorem weightedChoice_mem (choices : PDist) (r : RandState) (h : choices ≠ [])
    : ∃ k, (weightedChoice choices r).1 = some k ∧ k ∈ choices.map Prod.fst := by
  simp only [weightedChoice, if_neg h]
  by_cases htot : sumVals choices ≤ 0
  · simp only [if_pos htot]
    exact ⟨(pyChoice (choices.map Prod.fst) r).1, rfl,
      pyChoice_mem _ r (by simpa using h)⟩
  · simp only [if_neg htot]
    exact pickByCumulative_mem choices _ h

/-! Claim theorems -/

/-- Claim C2: the frequency-to-probability conversion maps the empty
table to the empty distribution without error, and on every non-empty
table (all counts positive, per the frequency table invariant) it maps
each key to its count divided by the single accumulated total, so the
resulting values sum to exactly 1 in rational arithmetic. -/
theorem freqToProb_empty_and_sums_to_one :
    frequenciesToProbabilities [] = [] ∧
    ∀ freqs : List (String × ℕ), freqs ≠ [] → (∀ e ∈ freqs, 0 < e.2) →
      frequenciesToProbabilities freqs =
        freqs.map (fun e => (e.1, (e.2 : ℚ) / (((freqs.map Prod.snd).sum : ℕ) : ℚ))) ∧
      sumVals (frequenciesToProbabilities freqs) = 1 := by
  constructor
  · rfl
  · intro freqs hne hpos
    constructor
    · simp [frequenciesToProbabilities, hne]
    · have htot : 0 < (freqs.map Prod.snd).sum := by
        apply List.sum_pos
        · intro x hx
          obtain ⟨e, he, rfl⟩ := List.mem_map.mp hx
          exact hpos e he
        · simpa using hne
      have htotQ : (((freqs.map Prod.snd).sum : ℕ) : ℚ) ≠ 0 := by
        exact_mod_cast htot.ne.symm
      simp only [frequenciesToProbabilities, if_neg hne, sumVals, List.map_map]
      have hcomp :
          (Prod.snd ∘ fun e : String × ℕ =>
            (e.1, (e.2 : ℚ) / (((freqs.map Prod.snd).sum : ℕ) : ℚ))) =
          fun e : String × ℕ => (e.2 : ℚ) * ((((freqs.map Prod.snd).sum : ℕ) : ℚ))⁻¹ := by
        funext e
        simp [div_eq_mul_inv]
      rw [hcomp, List.sum_map_mul_right]
      have hcast : (freqs.map (fun e : String × ℕ => (e.2 : ℚ))).sum
          = (((freqs.map Prod.snd).sum : ℕ) : ℚ) := by
        rw [Nat.cast_list_sum, List.map_map]
        rfl
      rw [hcast, mul_inv_cancel₀ htotQ]

/-- Witness for C2 at the concrete table a maps to 3, b maps to 1. -/
theorem freqToProb_empty_and_sums_to_one_witness :
    sumVals (frequenciesToProbabilities [("a", 3), ("b", 1)]) = 1 :=
  (freqToProb_empty_and_sums_to_one.2 [("a", 3), ("b", 1)]
    (by decide) (by decide)).2

/-- Claim C3: when the trigram transition model of a session is empty,
the order-3 generators delegate the whole call to the order-2
generators: identical arguments and identical random-source state give
exactly the order-2 result. -/
theorem emptyTrigram_delegates_whole_call :
    (∀ (sess : Session) (length : ℕ) (r : RandState),
      sess.charTrigramChains = [] →
      genChar3 sess length r = some (genChar2 sess length r)) ∧
    (∀ (sess : Session) (num : ℕ) (anchors : List String) (r : RandState),
      sess.wordTrigramChains = [] →
      genWord3 sess num anchors r = some (genWord2 sess num anchors r)) := by
  constructor
  · intro sess length r h
    simp [genChar3, h]
  · intro sess num anchors r h
    simp [genWord3, h]

/-- Witness for C3 at a concrete session with empty trigram models. -/
theorem emptyTrigram_delegates_whole_call_witness :
    genChar3 (mkSession [("a", 1)] [("a||a", 1)] [] [] [] [] none) 5 ⟨[]⟩ =
      some (genChar2 (mkSession [("a", 1)] [("a||a", 1)] [] [] [] [] none) 5 ⟨[]⟩) ∧
    genWord3 (mkSession [] [] [] [("w", 1)] [] [] none) 1 [] ⟨[]⟩ =
      some (genWord2 (mkSession [] [] [] [("w", 1)] [] [] none) 1 [] ⟨[]⟩) :=
  ⟨emptyTrigram_delegates_whole_call.1 _ 5 ⟨[]⟩ (by decide),
   emptyTrigram_delegates_whole_call.2 _ 1 [] ⟨[]⟩ (by decide)⟩

/-- Claim C7: a level outside the seven enumerated ones is rejected
with a ValueError whose message names the invalid level, and each of
the seven valid levels dispatches to its generation procedure.  The
session is an immutable input of the dispatch, so its tables and models
are unchanged by construction. -/
theorem generate_dispatch_valid_and_invalid :
    (∀ (sess : Session) (level : String) (length num : ℕ)
      (anchors : List String) (r : RandState), level ∉ validLevels →
      pyGenerate sess level length num anchors r =
        .error (.valueError
          ("Invalid level: " ++ level ++ ". Must be char-0 through word-3"))) ∧
    (∀ (sess : Session) (length num : ℕ) (anchors : List String) (r : RandState),
      pyGenerate sess "char-0" length num anchors r = .ok (genChar0 length r) ∧
      pyGenerate sess "char-1" length num anchors r = .ok (genChar1 sess length r) ∧
      pyGenerate sess "char-2" length num anchors r = .ok (genChar2 sess length r) ∧
      pyGenerate sess "char-3" length num anchors r =
        (match genChar3 sess length r with
          | some p => .ok p
          | none => .error .indexError) ∧
      pyGenerate sess "word-1" length num anchors r = .ok (genWord1 sess num anchors r) ∧
      pyGenerate sess "word-2" length num anchors r = .ok (genWord2 sess num anchors r) ∧
      pyGenerate sess "word-3" length num anchors r =
        (match genWord3 sess num anchors r with
          | some p => .ok p
          | none => .error .indexError)) := by
  constructor
  · intro sess level length num anchors r h
    simp only [validLevels, List.mem_cons, List.not_mem_nil, or_false, not_or] at h
    obtain ⟨h0, h1, h2, h3, h4, h5, h6⟩ := h
    simp [pyGenerate, h0, h1, h2, h3, h4, h5, h6]
  · intro sess length num anchors r
    refine ⟨rfl, rfl, rfl, rfl, rfl, rfl, rfl⟩

/-- Witness for C7 at the invalid level word-9. -/
theorem generate_dispatch_valid_and_invalid_witness :
    pyGenerate (mkSession [] [] [] [] [] [] none) "word-9" 5 2 [] ⟨[]⟩ =
      .error (.valueError
        ("Invalid level: " ++ "word-9" ++ ". Must be char-0 through word-3")) :=
  generate_dispatch_valid_and_invalid.1 _ "word-9" 5 2 [] ⟨[]⟩ (by decide)

/-- Claim C9: weighted sampling is total: the empty distribution yields
none with the random source untouched, a non-empty distribution always
yields some key of the distribution, and a degenerate non-positive
total weight falls back to a uniform choice among the keys. -/
theorem weightedChoice_total_membership :
    ∀ (choices : PDist) (r : RandState),
      (choices = [] → weightedChoice choices r = (none, r)) ∧
      (choices ≠ [] →
        ∃ k, (weightedChoice choices r).1 = some k ∧ k ∈ choices.map Prod.fst) ∧
      (choices ≠ [] → sumVals choices ≤ 0 →
        weightedChoice choices r =
          (some (pyChoice (choices.map Prod.fst) r).1,
            (pyChoice (choices.map Prod.fst) r).2)) := by
  intro choices r
  refine ⟨fun h => by simp [weightedChoice, h], fun h => weightedChoice_mem choices r h,
    fun h htot => ?_⟩
  simp [weightedChoice, h, htot]

/-- Witness for C9 at an all-zero-weight distribution. -/
theorem weightedChoice_total_membership_witness :
    ∃ k, (weightedChoice [("a", (0 : ℚ)), ("b", 0)] ⟨[1]⟩).1 = some k ∧
      k ∈ [("a", (0 : ℚ)), ("b", 0)].map Prod.fst :=
  (weightedChoice_total_membership [("a", (0 : ℚ)), ("b", 0)] ⟨[1]⟩).2.1 (by decide)

theorem genChar3Loop_stop (sess : Session) (length : ℕ) (result : List String)
    (r : RandState) (h : ¬ result.length < length) :
    genChar3Loop sess length result r = some (result, r) := by
  rw [genChar3Loop.eq_def]
  simp [h]

/-- Claim C8: for every model state, character-level generation with
length 0 returns the empty string without error, and word-level
generation with 0 sentences and no anchor words returns the empty
string without error (the order-3 levels return normally, hence the
some on their Option results). -/
theorem zero_request_empty_output :
    ∀ (sess : Session) (r : RandState),
      (genChar0 0 r).1 = "" ∧
      (genChar1 sess 0 r).1 = "" ∧
      (genChar2 sess 0 r).1 = "" ∧
      Option.map Prod.fst (genChar3 sess 0 r) = some "" ∧
      (genWord1 sess 0 [] r).1 = "" ∧
      (genWord2 sess 0 [] r).1 = "" ∧
      Option.map Prod.fst (genWord3 sess 0 [] r) = some "" := by
  intro sess r
  have h1 : ∀ r : RandState, (genChar1 sess 0 r).1 = "" := by
    intro r; rfl
  have h2 : ∀ r : RandState, (genChar2 sess 0 r).1 = "" := by
    intro r
    by_cases hb : sess.charBigramChains = []
    · simp [genChar2, hb, h1]
    · rw [genChar2, if_neg hb]
      simp [pyJoin, joinL]
  have hw1 : ∀ r : RandState, (genWord1 sess 0 [] r).1 = "" := by
    intro r
    rw [genWord1, genWord1Loop]
    simp [pyJoin, joinL]
  have hw2 : ∀ r : RandState, (genWord2 sess 0 [] r).1 = "" := by
    intro r
    by_cases hb : sess.wordBigramChains = []
    · simp [genWord2, hb, hw1]
    · rw [genWord2, if_neg hb]
      simp [genWord2Go, pyJoin, joinL]
  refine ⟨rfl, h1 r, h2 r, ?_, hw1 r, hw2 r, ?_⟩
  · by_cases ht : sess.charTrigramChains = []
    · simp [genChar3, ht, h2]
    · rw [genChar3, if_neg ht]
      simp [genChar3Loop_stop, pyJoin, joinL]
  · by_cases ht : sess.wordTrigramChains = []
    · simp [genWord3, ht, hw2]
    · rw [genWord3, if_neg ht]
      simp [genWord3Go, pyJoin, joinL]

/-- Claim C4: at every extension step of generate char 3 the next item
is drawn from the trigram chain keyed by the pair of the last two
generated items; a trigram miss falls back to the bigram chain keyed by
the last item alone; a further miss falls back to the character unigram
distribution, in exactly this order; and the extension loop applies
this cascade at the last two elements of the generated list. -/
theorem char3_fallback_cascade :
    (∀ (sess : Session) (a b : String) (r r1 : RandState) (x : String),
      weightedChoice (lookupCtx sess.charTrigramChains (Ctx.two a b)) r = (some x, r1) →
      char3Next sess a b r = (some x, r1)) ∧
    (∀ (sess : Session) (a b : String) (r r1 r2 : RandState) (y : String),
      weightedChoice (lookupCtx sess.charTrigramChains (Ctx.two a b)) r = (none, r1) →
      weightedChoice (lookupCtx sess.charBigramChains (Ctx.one b)) r1 = (some y, r2) →
      char3Next sess a b r = (some y, r2)) ∧
    (∀ (sess : Session) (a b : String) (r r1 r2 : RandState),
      weightedChoice (lookupCtx sess.charTrigramChains (Ctx.two a b)) r = (none, r1) →
      weightedChoice (lookupCtx sess.charBigramChains (Ctx.one b)) r1 = (none, r2) →
      char3Next sess a b r = weightedChoice sess.charUnigramProbs r2) ∧
    (∀ (sess : Session) (length : ℕ) (pre : List String) (a b : String) (r : RandState),
      (pre ++ [a, b]).length < length →
      genChar3Loop sess length (pre ++ [a, b]) r =
        match (char3Next sess a b r).1 with
        | some s =>
          if s ≠ "" then
            genChar3Loop sess length (pre ++ [a, b] ++ [s]) (char3Next sess a b r).2
          else some (pre ++ [a, b], (char3Next sess a b r).2)
        | none => some (pre ++ [a, b], (char3Next sess a b r).2)) := by
  refine ⟨?_, ?_, ?_, ?_⟩
  · intro sess a b r r1 x h
    simp [char3Next, h]
  · intro sess a b r r1 r2 y h1 h2
    simp [char3Next, h1, h2]
  · intro sess a b r r1 r2 h1 h2
    simp [char3Next, h1, h2]
  · intro sess length pre a b r h
    conv_lhs => rw [genChar3Loop.eq_def]
    rw [dif_pos h]
    have hrev : (pre ++ [a, b]).reverse = b :: a :: pre.reverse := by simp
    rw [hrev]
    rfl

/-- Witness for C4: the three cascade stages and the loop step, each at
a concrete session and random state. -/
theorem char3_fallback_cascade_witness :
    char3Next sessC4hit "a" "b" ⟨[0]⟩ = (some "z", ⟨[]⟩) ∧
    char3Next sessC4miss "a" "b" ⟨[0]⟩ = (some "c", ⟨[]⟩) ∧
    char3Next sessC4none "a" "b" ⟨[0]⟩ =
      weightedChoice sessC4none.charUnigramProbs ⟨[0]⟩ ∧
    genChar3Loop sessC4hit 5 (["q"] ++ ["a", "b"]) ⟨[0]⟩ =
      (match (char3Next sessC4hit "a" "b" ⟨[0]⟩).1 with
        | some s =>
          if s ≠ "" then
            genChar3Loop sessC4hit 5 (["q"] ++ ["a", "b"] ++ [s])
              (char3Next sessC4hit "a" "b" ⟨[0]⟩).2
          else some (["q"] ++ ["a", "b"], (char3Next sessC4hit "a" "b" ⟨[0]⟩).2)
        | none => some (["q"] ++ ["a", "b"], (char3Next sessC4hit "a" "b" ⟨[0]⟩).2)) :=
  ⟨char3_fallback_cascade.1 sessC4hit "a" "b" ⟨[0]⟩ ⟨[]⟩ "z" (by with_unfolding_all decide),
   char3_fallback_cascade.2.1 sessC4miss "a" "b" ⟨[0]⟩ ⟨[0]⟩ ⟨[]⟩ "c"
     (by with_unfolding_all decide) (by with_unfolding_all decide),
   char3_fallback_cascade.2.2.1 sessC4none "a" "b" ⟨[0]⟩ ⟨[0]⟩ ⟨[0]⟩
     (by with_unfolding_all decide) (by with_unfolding_all decide),
   char3_fallback_cascade.2.2.2 sessC4hit 5 ["q"] "a" "b" ⟨[0]⟩ (by decide)⟩

theorem strData_mk (l : List Char) : (String.mk l).data = l := rfl

theorem strMk_data (s : String) : String.mk s.data = s := rfl

theorem string_ne_empty_data {s : String} (h : s ≠ "") : s.data ≠ [] := by
  intro hd
  apply h
  cases s with
  | mk d => cases hd; rfl

theorem startsWithL_eq_append :
    ∀ (sep l : List Char), startsWithL sep l = true →
      sep ++ List.drop sep.length l = l := by
  intro sep
  induction sep with
  | nil => intro l _; simp
  | cons a as ih =>
    intro l h
    cases l with
    | nil => simp [startsWithL] at h
    | cons b bs =>
      simp only [startsWithL, Bool.and_eq_true, beq_iff_eq] at h
      obtain ⟨rfl, h2⟩ := h
      simp only [List.length_cons, List.drop_succ_cons, List.cons_append,
        List.cons.injEq, true_and]
      exact ih bs h2

theorem splitAux_ne_nil :
    ∀ (sep : List Char) (fuel : ℕ) (l acc : List Char),
      splitAux sep fuel l acc ≠ [] := by
  intro sep fuel
  induction fuel with
  | zero =>
    intro l acc
    cases l <;> simp [splitAux]
  | succ n ih =>
    intro l acc
    cases l with
    | nil => simp [splitAux]
    | cons c rest =>
      rw [splitAux]
      by_cases h : sep ≠ [] ∧ startsWithL sep (c :: rest)
      · simp [h]
      · simp only [if_neg h]
        exact ih rest (c :: acc)

theorem joinL_cons_ne_nil (sep : List Char) (x : List Char) (xs : List (List Char))
    (h : xs ≠ []) : joinL sep (x :: xs) = x ++ sep ++ joinL sep xs := by
  cases xs with
  | nil => exact absurd rfl h
  | cons y rest => rfl

theorem joinL_splitAux (sep : List Char) :
    ∀ (fuel : ℕ) (l acc : List Char), l.length ≤ fuel →
      joinL sep (splitAux sep fuel l acc) = acc.reverse ++ l := by
  intro fuel
  induction fuel with
  | zero =>
    intro l acc h
    cases l with
    | nil => simp [splitAux, joinL]
    | cons c rest => simp at h
  | succ n ih =>
    intro l acc h
    cases l with
    | nil => simp [splitAux, joinL]
    | cons c rest =>
      rw [splitAux]
      by_cases hc : sep ≠ [] ∧ startsWithL sep (c :: rest)
      · rw [if_pos hc]
        rw [joinL_cons_ne_nil sep _ _ (splitAux_ne_nil sep n _ [])]
        have hlen : (List.drop sep.length (c :: rest)).length ≤ n := by
          simp only [List.length_drop, List.length_cons]
          have : 0 < sep.length := List.length_pos.mpr hc.1
          simp only [List.length_cons] at h
          omega
        rw [ih _ [] hlen]
        simp only [List.reverse_nil, List.nil_append, List.append_assoc]
        rw [startsWithL_eq_append sep _ hc.2]
      · rw [if_neg hc]
        rw [ih rest (c :: acc) (by simp only [List.length_cons] at h; omega)]
        simp

theorem pyJoin_pySplit (sep text : String) :
    pyJoin sep (pySplit sep text) = text := by
  unfold pyJoin pySplit
  rw [List.map_map]
  have hmap : (String.data ∘ String.mk) = id := by
    funext l
    rfl
  rw [hmap, List.map_id]
  rw [joinL_splitAux sep.data text.data.length text.data [] (le_refl _)]
  simp [strMk_data]

theorem anchorAttempts_not_in_vocab (sess : Session) (anchor : String)
    (h : alFind sess.wordUnigrams anchor = none) :
    ∀ (n : ℕ) (sentences : List String) (r : RandState),
      anchorAttempts sess anchor n sentences r = (sentences, r) := by
  intro n
  induction n with
  | zero => intro sentences r; rfl
  | succ m ih =>
    intro sentences r
    simp only [anchorAttempts, h, Option.isSome_none, Bool.false_eq_true, if_false]
    exact ih sentences r

/-- Claim C6: when none of the requested anchor words occurs in the
unigram vocabulary, anchor integration returns the input text unchanged
and raises no error: the absent anchors are silently skipped. -/
theorem anchors_absent_from_vocab_noop :
    ∀ (sess : Session) (text : String) (anchors : List String) (num : ℕ)
      (r : RandState),
      (∀ a ∈ anchors, alFind sess.wordUnigrams a = none) →
      integrateAnchorWords sess text anchors num r = (text, r) := by
  intro sess text anchors num r h
  by_cases ha : anchors = []
  · simp [integrateAnchorWords, ha]
  · have hfold :
        ∀ (ms : List String), (∀ a ∈ ms, alFind sess.wordUnigrams a = none) →
          ∀ (p : List String × RandState),
            ms.foldl (fun p anchor => anchorAttempts sess anchor 10 p.1 p.2) p = p := by
      intro ms
      induction ms with
      | nil => intro _ p; rfl
      | cons a rest ih =>
        intro hin p
        simp only [List.foldl_cons]
        rw [anchorAttempts_not_in_vocab sess a (hin a (by simp)) 10 p.1 p.2]
        exact ih (fun b hb => hin b (by simp [hb])) p
    simp only [integrateAnchorWords, if_neg ha]
    by_cases hm : anchors.filter (fun w => !pyContainsSub (pyLower w) (pyLower text)) = []
    · rw [if_pos hm]
    · rw [if_neg hm]
      rw [hfold _ (fun a hf => h a (List.mem_of_mem_filter hf)) (pySplit ". " text, r)]
      rw [pyJoin_pySplit ". " text]

/-- Witness for C6: a concrete session whose vocabulary misses the
requested anchor leaves the text unchanged. -/
theorem anchors_absent_from_vocab_noop_witness :
    integrateAnchorWords sessC4hit "Aaa bbb. Ccc ddd." ["zzz"] 2 ⟨[5, 6]⟩ =
      ("Aaa bbb. Ccc ddd.", ⟨[5, 6]⟩) :=
  anchors_absent_from_vocab_noop sessC4hit "Aaa bbb. Ccc ddd." ["zzz"] 2 ⟨[5, 6]⟩
    (by decide)

theorem truthyApp_cons (a : String) (built : List String) (w : Option String) :
    truthyApp (a :: built) w = a :: truthyApp built w := by
  cases w with
  | none => rfl
  | some s =>
    by_cases hs : s ≠ ""
    · simp [truthyApp, hs]
    · simp [truthyApp, hs]

theorem anchorWalkGo_spec (sess : Session) (anchor : String) :
    ∀ (n : ℕ) (built : List String) (r : RandState),
      anchorWalkGo sess n (anchor :: built) r =
        (anchor :: (specAnchorWalk sess anchor n built r).1,
          (specAnchorWalk sess anchor n built r).2) := by
  intro n
  induction n with
  | zero => intro built r; rfl
  | succ m ih =>
    intro built r
    rw [anchorWalkGo, specAnchorWalk]
    rw [truthyApp_cons]
    exact ih _ _

/-- Claim C5: anchor synthesis walks backward from the anchor building
a prefix and forward building a suffix, drawing from the bigram chain
dictionary keyed by the two-word context whenever at least two context
words exist and from the unigram distribution only otherwise, then
formats the reversed prefix, the anchor and the suffix as one sentence;
integration skips anchors outside the vocabulary, makes at most 10
attempts per missing anchor, and a successful candidate replaces the
sentence at a uniformly drawn index. -/
theorem anchor_synthesis_structure :
    (∀ (sess : Session) (anchor : String) (numWords : ℕ) (r : RandState),
      genAroundAnchor sess anchor numWords r =
        (let b := pyRandint 2 5 r
         let pre := specAnchorWalk sess anchor b.1 [] b.2
         let suf := specAnchorWalk sess anchor (numWords - b.1) [] pre.2
         (some (sentenceFormat (pre.1.reverse ++ anchor :: suf.1)), suf.2))) ∧
    (∀ (sess : Session) (anchor : String) (n : ℕ) (sentences : List String)
      (r : RandState), alFind sess.wordUnigrams anchor = none →
      anchorAttempts sess anchor n sentences r = (sentences, r)) ∧
    (∀ (sess : Session) (anchor : String) (n : ℕ) (sentences : List String)
      (r r1 r2 : RandState) (L : ℕ) (c : String),
      (alFind sess.wordUnigrams anchor).isSome = true →
      sampleSentenceLength sess.sentenceStats r = (L, r1) →
      genAroundAnchor sess anchor L r1 = (some c, r2) →
      c ≠ "" →
      pyContainsSub (pyLower anchor) (pyLower c) = true →
      anchorAttempts sess anchor (n + 1) sentences r =
        (sentences.set (pyRandint 0 (sentences.length - 1) r2).1 c,
          (pyRandint 0 (sentences.length - 1) r2).2)) ∧
    (∀ (sess : Session) (text : String) (anchors : List String) (num : ℕ)
      (r : RandState), anchors ≠ [] →
      anchors.filter (fun w => ! pyContainsSub (pyLower w) (pyLower text)) ≠ [] →
      integrateAnchorWords sess text anchors num r =
        (let q := (anchors.filter
            (fun w => ! pyContainsSub (pyLower w) (pyLower text))).foldl
            (fun p anchor => anchorAttempts sess anchor 10 p.1 p.2)
            (pySplit ". " text, r)
         (pyJoin ". " q.1, q.2))) := by
  refine ⟨?_, ?_, ?_, ?_⟩
  · intro sess anchor numWords r
    simp only [genAroundAnchor]
    rw [anchorWalkGo_spec, anchorWalkGo_spec]
    simp only [List.tail_cons, List.reverse_cons]
    have hne :
        (specAnchorWalk sess anchor (pyRandint 2 5 r).1 [] (pyRandint 2 5 r).2).1.reverse
          ++ [anchor] ++
          (specAnchorWalk sess anchor (numWords - (pyRandint 2 5 r).1) []
            (specAnchorWalk sess anchor (pyRandint 2 5 r).1 [] (pyRandint 2 5 r).2).2).1
          ≠ [] := by
      simp
    rw [if_pos hne]
    simp [List.append_assoc]
  · intro sess anchor n sentences r h
    exact anchorAttempts_not_in_vocab sess anchor h n sentences r
  · intro sess anchor n sentences r r1 r2 L c h1 h2 h3 h4 h5
    rw [anchorAttempts]
    simp only [h1, if_true]
    rw [h2]
    simp only []
    rw [h3]
    simp [h4, h5]
  · intro sess text anchors num r ha hm
    simp only [integrateAnchorWords, if_neg ha, if_neg hm]

/-- Witness for C5: the vocabulary-miss skip, the successful
replacement step, and the integration unfolding, each at concrete
inputs. -/
theorem anchor_synthesis_structure_witness :
    anchorAttempts sessC5 "zzz" 10 ["Aaa bbb", "Ccc ddd."] ⟨[5]⟩ =
      (["Aaa bbb", "Ccc ddd."], ⟨[5]⟩) ∧
    anchorAttempts sessC5 "hello" 10 ["Aaa bbb", "Ccc ddd."] ⟨[5, 6, 7, 8]⟩ =
      (["Aaa bbb", "Ccc ddd."].set
          (pyRandint 0 (["Aaa bbb", "Ccc ddd."].length - 1) ⟨[8]⟩).1 "Hello hello.",
        (pyRandint 0 (["Aaa bbb", "Ccc ddd."].length - 1) ⟨[8]⟩).2) ∧
    integrateAnchorWords sessC5 "Aaa bbb. Ccc ddd." ["hello"] 2 ⟨[5, 6, 7, 8]⟩ =
      (let q := (["hello"].filter
          (fun w => ! pyContainsSub (pyLower w) (pyLower "Aaa bbb. Ccc ddd."))).foldl
          (fun p anchor => anchorAttempts sessC5 anchor 10 p.1 p.2)
          (pySplit ". " "Aaa bbb. Ccc ddd.", ⟨[5, 6, 7, 8]⟩)
       (pyJoin ". " q.1, q.2)) :=
  ⟨anchor_synthesis_structure.2.1 sessC5 "zzz" 10 ["Aaa bbb", "Ccc ddd."] ⟨[5]⟩
      (by decide),
   anchor_synthesis_structure.2.2.1 sessC5 "hello" 9 ["Aaa bbb", "Ccc ddd."]
      ⟨[5, 6, 7, 8]⟩ ⟨[6, 7, 8]⟩ ⟨[8]⟩ 3 "Hello hello." (by decide) (by decide)
      (by with_unfolding_all decide) (by decide) (by decide),
   anchor_synthesis_structure.2.2.2 sessC5 "Aaa bbb. Ccc ddd." ["hello"] 2
      ⟨[5, 6, 7, 8]⟩ (by decide) (by decide)⟩

theorem alFind_alAdd {α : Type} [DecidableEq α] :
    ∀ (m : List (α × ℚ)) (k k0 : α) (v : ℚ),
      alFind (alAdd m k v) k0 =
        if k0 = k then some ((alFind m k).getD 0 + v) else alFind m k0 := by
  intro m
  induction m with
  | nil =>
    intro k k0 v
    by_cases h : k0 = k
    · subst h; simp [alAdd, alFind]
    · have h' : ¬ (k = k0) := fun hh => h hh.symm
      simp [alAdd, alFind, h, h']
  | cons e rest ih =>
    intro k k0 v
    obtain ⟨k1, w⟩ := e
    simp only [alAdd]
    by_cases h1 : k1 = k
    · subst h1
      rw [if_pos rfl]
      by_cases h0 : k1 = k0
      · subst h0; simp [alFind]
      · have h0' : ¬ (k0 = k1) := fun hh => h0 hh.symm
        simp [alFind, h0, h0']
    · rw [if_neg h1]
      by_cases h0 : k1 = k0
      · subst h0
        have hk : ¬ (k1 = k) := h1
        have hk' : ¬ (k1 = k) := h1
        simp [alFind, fun hh : k1 = k => h1 hh]
      · have h0' : ¬ (k0 = k1) := fun hh => h0 hh.symm
        simp [alFind, h0, ih k k0 v, h1]

theorem sumVals_alAdd : ∀ (d : PDist) (k : String) (v : ℚ),
    sumVals (alAdd d k v) = sumVals d + v := by
  intro d
  induction d with
  | nil => intro k v; simp [alAdd, sumVals]
  | cons e rest ih =>
    intro k v
    obtain ⟨k1, w⟩ := e
    simp only [alAdd]
    by_cases h : k1 = k
    · rw [if_pos h]
      simp only [sumVals, List.map_cons, List.sum_cons] at *
      ring
    · rw [if_neg h]
      simp only [sumVals, List.map_cons, List.sum_cons] at *
      rw [ih]
      ring

theorem alFind_al2Add :
    ∀ (ch : Chains) (c : Ctx) (t : String) (v : ℚ) (c0 : Ctx),
      alFind (al2Add ch c t v) c0 =
        if c0 = c then some (alAdd ((alFind ch c).getD []) t v) else alFind ch c0 := by
  intro ch
  induction ch with
  | nil =>
    intro c t v c0
    by_cases h : c0 = c
    · subst h; simp [al2Add, alFind, alAdd]
    · have h' : ¬ (c = c0) := fun hh => h hh.symm
      simp [al2Add, alFind, h, h']
  | cons e rest ih =>
    intro c t v c0
    obtain ⟨c1, d⟩ := e
    simp only [al2Add]
    by_cases h1 : c1 = c
    · subst h1
      rw [if_pos rfl]
      by_cases h0 : c1 = c0
      · subst h0; simp [alFind]
      · have h0' : ¬ (c0 = c1) := fun hh => h0 hh.symm
        simp [alFind, h0, h0']
    · rw [if_neg h1]
      by_cases h0 : c1 = c0
      · subst h0
        simp [alFind, fun hh : c1 = c => h1 hh]
      · have h0' : ¬ (c0 = c1) := fun hh => h0 hh.symm
        simp [alFind, h0, ih c t v c0, h1]

theorem chainsStep_targets (ch : Chains) (e : String × ℕ) :
    chainsStep ch e =
      match targetsOf e.1 with
      | some (c, t) => al2Add ch c t (e.2 : ℚ)
      | none => ch := by
  simp only [chainsStep, targetsOf]
  cases hsp : pySplit "||" e.1 with
  | nil => rfl
  | cons x xs =>
    cases xs with
    | nil => rfl
    | cons y ys =>
      cases ys with
      | nil => rfl
      | cons z zs =>
        cases zs with
        | nil => rfl
        | cons w ws => rfl

theorem sum_map_filter {α : Type} (p : α → Bool) (f : α → ℚ) :
    ∀ l : List α, ((l.filter p).map f).sum = (l.map (fun e => if p e then f e else 0)).sum := by
  intro l
  induction l with
  | nil => rfl
  | cons e rest ih =>
    by_cases h : p e
    · simp [List.filter_cons, h, ih]
    · simp [List.filter_cons, h, ih]

theorem lookup2_al2Add (ch : Chains) (c1 : Ctx) (t1 : String) (v : ℚ)
    (c0 : Ctx) (t0 : String) :
    lookup2 (al2Add ch c1 t1 v) c0 t0 =
      if c0 = c1 ∧ t0 = t1 then some ((lookup2 ch c1 t1).getD 0 + v)
      else lookup2 ch c0 t0 := by
  unfold lookup2
  rw [alFind_al2Add]
  by_cases hc : c0 = c1
  · subst hc
    simp only [eq_self_iff_true, if_true, true_and, Option.some_bind]
    rw [alFind_alAdd]
    by_cases ht : t0 = t1
    · subst ht
      simp only [eq_self_iff_true, if_true]
      cases hfc : alFind ch c0 with
      | none => simp [hfc, alFind]
      | some d => simp [hfc]
    · rw [if_neg ht, if_neg ht]
      cases hfc : alFind ch c0 with
      | none => simp [hfc, alFind]
      | some d => simp [hfc]
  · rw [if_neg hc, if_neg (fun hh : c0 = c1 ∧ t0 = t1 => hc hh.1)]

theorem innerSumAt_al2Add (ch : Chains) (c1 : Ctx) (t1 : String) (v : ℚ) (c0 : Ctx) :
    innerSumAt (al2Add ch c1 t1 v) c0 =
      if c0 = c1 then innerSumAt ch c1 + v else innerSumAt ch c0 := by
  unfold innerSumAt
  rw [alFind_al2Add]
  by_cases hc : c0 = c1
  · subst hc
    rw [if_pos rfl, if_pos rfl]
    simp only [Option.getD_some]
    rw [sumVals_alAdd]
  · rw [if_neg hc, if_neg hc]

theorem touchedB_cons (e : String × ℕ) (rest : List (String × ℕ)) (c : Ctx)
    (t : String) :
    touchedB (e :: rest) c t = ((targetsOf e.1 == some (c, t)) || touchedB rest c t) := by
  simp [touchedB]

theorem rawPairCount_cons (e : String × ℕ) (rest : List (String × ℕ)) (c : Ctx)
    (t : String) :
    rawPairCount (e :: rest) c t =
      (if targetsOf e.1 = some (c, t) then (e.2 : ℚ) else 0) + rawPairCount rest c t := by
  simp [rawPairCount]

theorem rawPairCount_of_not_touched :
    ∀ (l : List (String × ℕ)) (c : Ctx) (t : String),
      touchedB l c t = false → rawPairCount l c t = 0 := by
  intro l
  induction l with
  | nil => intro c t _; rfl
  | cons e rest ih =>
    intro c t h
    rw [touchedB_cons] at h
    simp only [Bool.or_eq_false_iff, beq_eq_false_iff_ne, ne_eq] at h
    rw [rawPairCount_cons, if_neg h.1, ih c t h.2]
    ring

theorem rawCtxTotal_cons_some (e : String × ℕ) (rest : List (String × ℕ)) (c c1 : Ctx)
    (t1 : String) (h : targetsOf e.1 = some (c1, t1)) :
    rawCtxTotal (e :: rest) c = (if c1 = c then (e.2 : ℚ) else 0) + rawCtxTotal rest c := by
  simp [rawCtxTotal, h]

theorem rawCtxTotal_cons_none (e : String × ℕ) (rest : List (String × ℕ)) (c : Ctx)
    (h : targetsOf e.1 = none) :
    rawCtxTotal (e :: rest) c = rawCtxTotal rest c := by
  simp [rawCtxTotal, h]

theorem lookup2_chains_foldl :
    ∀ (l : List (String × ℕ)) (ch : Chains) (c : Ctx) (t : String),
      lookup2 (l.foldl chainsStep ch) c t =
        if touchedB l c t then some ((lookup2 ch c t).getD 0 + rawPairCount l c t)
        else lookup2 ch c t := by
  intro l
  induction l with
  | nil => intro ch c t; simp [touchedB]
  | cons e rest ih =>
    intro ch c t
    cases hte : targetsOf e.1 with
    | none =>
      have hstep : chainsStep ch e = ch := by rw [chainsStep_targets, hte]
      rw [List.foldl_cons, hstep, ih]
      have h1 : touchedB (e :: rest) c t = touchedB rest c t := by
        rw [touchedB_cons, hte]
        simp
      have h2 : rawPairCount (e :: rest) c t = rawPairCount rest c t := by
        rw [rawPairCount_cons, hte]
        simp
      rw [h1, h2]
    | some ct =>
      obtain ⟨c1, t1⟩ := ct
      have hstep : chainsStep ch e = al2Add ch c1 t1 (e.2 : ℚ) := by
        rw [chainsStep_targets, hte]
      rw [List.foldl_cons, hstep, ih]
      by_cases hmatch : c = c1 ∧ t = t1
      · obtain ⟨rfl, rfl⟩ := hmatch
        have htt : touchedB (e :: rest) c t = true := by
          rw [touchedB_cons, hte]
          simp
        rw [htt, if_pos rfl]
        have hval : lookup2 (al2Add ch c t (e.2 : ℚ)) c t =
            some ((lookup2 ch c t).getD 0 + e.2) := by
          rw [lookup2_al2Add]
          simp
        rw [rawPairCount_cons, hte, if_pos rfl]
        by_cases htr : touchedB rest c t
        · rw [if_pos htr, hval]
          simp only [Option.getD_some]
          congr 1
          ring
        · rw [if_neg htr, hval,
            rawPairCount_of_not_touched rest c t (Bool.not_eq_true _ ▸ htr)]
          congr 1
          ring
      · have hne : ¬ (targetsOf e.1 = some (c, t)) := by
          rw [hte]
          intro hh
          simp only [Option.some.injEq, Prod.mk.injEq] at hh
          exact hmatch ⟨hh.1.symm, hh.2.symm⟩
        have hval : lookup2 (al2Add ch c1 t1 (e.2 : ℚ)) c t = lookup2 ch c t := by
          rw [lookup2_al2Add]
          rw [if_neg (fun hh : c = c1 ∧ t = t1 => hmatch hh)]
        have hbeq : (targetsOf e.1 == some (c, t)) = false :=
          beq_eq_false_iff_ne.mpr hne
        have h1 : touchedB (e :: rest) c t = touchedB rest c t := by
          rw [touchedB_cons, hbeq, Bool.false_or]
        have h2 : rawPairCount (e :: rest) c t = rawPairCount rest c t := by
          rw [rawPairCount_cons, if_neg hne]
          ring
        rw [hval, h1, h2]

theorem innerSum_chains_foldl :
    ∀ (l : List (String × ℕ)) (ch : Chains) (c : Ctx),
      innerSumAt (l.foldl chainsStep ch) c = innerSumAt ch c + rawCtxTotal l c := by
  intro l
  induction l with
  | nil => intro ch c; simp [rawCtxTotal]
  | cons e rest ih =>
    intro ch c
    cases hte : targetsOf e.1 with
    | none =>
      have hstep : chainsStep ch e = ch := by rw [chainsStep_targets, hte]
      rw [List.foldl_cons, hstep, ih, rawCtxTotal_cons_none e rest c hte]
    | some ct =>
      obtain ⟨c1, t1⟩ := ct
      have hstep : chainsStep ch e = al2Add ch c1 t1 (e.2 : ℚ) := by
        rw [chainsStep_targets, hte]
      rw [List.foldl_cons, hstep, ih, innerSumAt_al2Add,
        rawCtxTotal_cons_some e rest c c1 t1 hte]
      by_cases hc : c = c1
      · subst hc
        rw [if_pos rfl, if_pos rfl]
        ring
      · rw [if_neg hc, if_neg (fun hh : c1 = c => hc hh.symm)]
        ring

theorem alFind_mapSnd {α β γ : Type} [DecidableEq α] (f : β → γ) :
    ∀ (l : List (α × β)) (k : α),
      alFind (l.map (fun e => (e.1, f e.2))) k = (alFind l k).map f := by
  intro l
  induction l with
  | nil => intro k; rfl
  | cons e rest ih =>
    intro k
    obtain ⟨k1, v⟩ := e
    by_cases h : k1 = k <;> simp [alFind, h, ih]

theorem targetsOf_one_iff (k a t : String) :
    targetsOf k = some (Ctx.one a, t) ↔ pySplit "||" k = [a, t] := by
  unfold targetsOf
  cases h : pySplit "||" k with
  | nil => simp
  | cons x xs =>
    cases xs with
    | nil => simp
    | cons y ys =>
      cases ys with
      | nil => simp
      | cons z zs =>
        cases zs with
        | nil => simp
        | cons w ws => simp

theorem rawPairCount_eq_pairCount (l : List (String × ℕ)) (a t : String) :
    rawPairCount l (Ctx.one a) t = pairCount l a t := by
  rw [pairCount, sum_map_filter, rawPairCount]
  congr 1
  apply List.map_congr_left
  intro e _
  by_cases h : pySplit "||" e.1 = [a, t]
  · rw [if_pos ((targetsOf_one_iff e.1 a t).mpr h)]
    simp [h]
  · rw [if_neg (fun hh => h ((targetsOf_one_iff e.1 a t).mp hh))]
    simp [h]

theorem rawCtxTotal_eq_contextTotal (l : List (String × ℕ)) (a : String) :
    rawCtxTotal l (Ctx.one a) = contextTotal l a := by
  rw [contextTotal, sum_map_filter, rawCtxTotal]
  congr 1
  apply List.map_congr_left
  intro e _
  cases h : pySplit "||" e.1 with
  | nil => simp [targetsOf, h]
  | cons x xs =>
    cases xs with
    | nil => simp [targetsOf, h]
    | cons y ys =>
      cases ys with
      | nil =>
        simp only [targetsOf, h]
        by_cases hx : x = a
        · subst hx; simp
        · simp [hx, Ctx.one.injEq]
      | cons z zs =>
        cases zs with
        | nil => simp [targetsOf, h]
        | cons w ws => simp [targetsOf, h]

/-- Claim C1: for a frequency table whose keys are two-part delimited
strings (counts positive, per the frequency table invariant), the chain
builder groups each key under the context given by its first part,
accumulates counts of identical (context, continuation) pairs, and
normalizes each context independently by that context total: every
stored pair maps to its accumulated count divided by its context
total. -/
theorem buildChains_groups_accumulates_normalizes :
    ∀ (ngrams : List (String × ℕ)),
      (∀ e ∈ ngrams, (pySplit "||" e.1).length = 2) →
      (∀ e ∈ ngrams, 0 < e.2) →
      ∀ (a t : String), (∃ e ∈ ngrams, pySplit "||" e.1 = [a, t]) →
        lookup2 (buildMarkovChains ngrams) (Ctx.one a) t =
          some (pairCount ngrams a t / contextTotal ngrams a) := by
  intro ngrams h2 hpos a t hex
  have htouch : touchedB ngrams (Ctx.one a) t = true := by
    obtain ⟨e, he, hsp⟩ := hex
    apply List.any_eq_true.mpr
    exact ⟨e, he, beq_iff_eq.mpr ((targetsOf_one_iff e.1 a t).mpr hsp)⟩
  have hlk := lookup2_chains_foldl ngrams [] (Ctx.one a) t
  rw [if_pos htouch] at hlk
  have hlk2 : lookup2 (chainsAccum ngrams) (Ctx.one a) t
      = some (rawPairCount ngrams (Ctx.one a) t) := by
    rw [chainsAccum, hlk]
    simp [lookup2, alFind]
  have hsum : innerSumAt (chainsAccum ngrams) (Ctx.one a)
      = rawCtxTotal ngrams (Ctx.one a) := by
    have hi := innerSum_chains_foldl ngrams [] (Ctx.one a)
    rw [chainsAccum, hi]
    simp [innerSumAt, alFind, sumVals]
  cases halc : alFind (chainsAccum ngrams) (Ctx.one a) with
  | none =>
    rw [lookup2, halc] at hlk2
    simp at hlk2
  | some d =>
    have hdt : alFind d t = some (rawPairCount ngrams (Ctx.one a) t) := by
      rw [lookup2, halc] at hlk2
      simpa using hlk2
    have hsd : sumVals d = rawCtxTotal ngrams (Ctx.one a) := by
      rw [innerSumAt, halc] at hsum
      simpa using hsum
    rw [buildMarkovChains, lookup2]
    have hmap : alFind ((chainsAccum ngrams).map
        (fun e => (e.1, normalizeDist e.2))) (Ctx.one a) = some (normalizeDist d) := by
      rw [alFind_mapSnd normalizeDist, halc]
      rfl
    rw [hmap]
    simp only [Option.some_bind]
    have hnorm : alFind (normalizeDist d) t
        = some (rawPairCount ngrams (Ctx.one a) t / sumVals d) := by
      rw [normalizeDist, alFind_mapSnd (fun v => v / sumVals d), hdt]
      rfl
    rw [hnorm, hsd, rawPairCount_eq_pairCount, rawCtxTotal_eq_contextTotal]

/-- Witness for C1 at the concrete table of the specification scenario:
context the yields cat with probability 3/4 and dog with 1/4. -/
theorem buildChains_groups_accumulates_normalizes_witness :
    lookup2 (buildMarkovChains [("the||cat", 3), ("the||dog", 1)])
        (Ctx.one "the") "cat" = some ((3 : ℚ) / 4) ∧
    lookup2 (buildMarkovChains [("the||cat", 3), ("the||dog", 1)])
        (Ctx.one "the") "dog" = some ((1 : ℚ) / 4) := by
  constructor
  · rw [buildChains_groups_accumulates_normalizes [("the||cat", 3), ("the||dog", 1)]
      (by decide) (by decide) "the" "cat" ⟨("the||cat", 3), by decide, by decide⟩]
    with_unfolding_all decide
  · rw [buildChains_groups_accumulates_normalizes [("the||cat", 3), ("the||dog", 1)]
      (by decide) (by decide) "the" "dog" ⟨("the||dog", 1), by decide, by decide⟩]
    with_unfolding_all decide

theorem alFind_mem {α β : Type} [DecidableEq α] :
    ∀ (l : List (α × β)) (k : α) (v : β), alFind l k = some v → (k, v) ∈ l := by
  intro l
  induction l with
  | nil => intro k v h; simp [alFind] at h
  | cons e rest ih =>
    intro k v h
    obtain ⟨k1, w⟩ := e
    rw [alFind] at h
    by_cases h1 : k1 = k
    · subst h1
      rw [if_pos rfl] at h
      injection h with hv
      subst hv
      exact List.mem_cons_self _ _
    · rw [if_neg h1] at h
      exact List.mem_cons_of_mem _ (ih k v h)

theorem weightedChoice_some_mem (d : PDist) (r : RandState) (k : String)
    (h : (weightedChoice d r).1 = some k) : k ∈ d.map Prod.fst := by
  by_cases hd : d = []
  · subst hd; simp [weightedChoice] at h
  · obtain ⟨k2, h1, h2⟩ := weightedChoice_mem d r hd
    rw [h1] at h
    injection h with hk
    subst hk
    exact h2

theorem weightedChoice_short (d : PDist) (r : RandState) (s : String)
    (hd : ∀ e ∈ d, e.1.length ≤ 1) (h : (weightedChoice d r).1 = some s) :
    s.length ≤ 1 := by
  obtain ⟨e, he, rfl⟩ := List.mem_map.mp (weightedChoice_some_mem d r s h)
  exact hd e he

theorem lookupCtx_short (ch : Chains) (c : Ctx)
    (h : ∀ cd ∈ ch, ∀ e ∈ cd.2, e.1.length ≤ 1) :
    ∀ e ∈ lookupCtx ch c, e.1.length ≤ 1 := by
  intro e he
  rw [lookupCtx] at he
  cases halc : alFind ch c with
  | none => rw [halc] at he; simp at he
  | some d =>
    rw [halc] at he
    simp only [Option.getD_some] at he
    exact h (c, d) (alFind_mem ch c d halc) e he

theorem optLookup1_short (ch : Chains) (cur : Option String)
    (h : ∀ cd ∈ ch, ∀ e ∈ cd.2, e.1.length ≤ 1) :
    ∀ e ∈ optLookup1 ch cur, e.1.length ≤ 1 := by
  cases cur with
  | none => intro e he; simp [optLookup1] at he
  | some s => exact lookupCtx_short ch (Ctx.one s) h

theorem truthyApp_short (acc : List String) (o : Option String)
    (hacc : ∀ s ∈ acc, s.length ≤ 1) (ho : ∀ w, o = some w → w.length ≤ 1) :
    ∀ s ∈ truthyApp acc o, s.length ≤ 1 := by
  cases o with
  | none => exact hacc
  | some w =>
    by_cases hw : w ≠ ""
    · intro s hs
      rw [truthyApp, if_pos hw] at hs
      rcases List.mem_append.mp hs with h1 | h2
      · exact hacc s h1
      · rw [List.mem_singleton] at h2
        subst h2
        exact ho s rfl
    · intro s hs
      rw [truthyApp, if_neg hw] at hs
      exact hacc s hs

theorem truthyApp_length (acc : List String) (o : Option String) :
    (truthyApp acc o).length ≤ acc.length + 1 := by
  cases o with
  | none => simp [truthyApp]
  | some w =>
    by_cases hw : w ≠ ""
    · simp [truthyApp, hw]
    · simp [truthyApp, hw]

theorem char2Next_short (sess : Session) (current : Option String) (r : RandState)
    (s : String)
    (hu : ∀ e ∈ sess.charUnigramProbs, e.1.length ≤ 1)
    (hb : ∀ cd ∈ sess.charBigramChains, ∀ e ∈ cd.2, e.1.length ≤ 1)
    (h : (char2Next sess current r).1 = some s) : s.length ≤ 1 := by
  rw [char2Next] at h
  cases hw : (weightedChoice (optLookup1 sess.charBigramChains current) r).1 with
  | some x =>
    simp only [hw] at h
    injection h with hx
    subst hx
    exact weightedChoice_short _ r _ (optLookup1_short _ _ hb) hw
  | none =>
    simp only [hw] at h
    exact weightedChoice_short _ _ s hu h

theorem char3Next_short (sess : Session) (a b : String) (r : RandState) (s : String)
    (hu : ∀ e ∈ sess.charUnigramProbs, e.1.length ≤ 1)
    (hb : ∀ cd ∈ sess.charBigramChains, ∀ e ∈ cd.2, e.1.length ≤ 1)
    (ht : ∀ cd ∈ sess.charTrigramChains, ∀ e ∈ cd.2, e.1.length ≤ 1)
    (h : (char3Next sess a b r).1 = some s) : s.length ≤ 1 := by
  rw [char3Next] at h
  cases h1 : (weightedChoice (lookupCtx sess.charTrigramChains (Ctx.two a b)) r).1 with
  | some x =>
    simp only [h1] at h
    injection h with hx
    subst hx
    exact weightedChoice_short _ r _ (lookupCtx_short _ _ ht) h1
  | none =>
    simp only [h1] at h
    cases h2 : (weightedChoice (lookupCtx sess.charBigramChains (Ctx.one b))
        (weightedChoice (lookupCtx sess.charTrigramChains (Ctx.two a b)) r).2).1 with
    | some y =>
      simp only [h2] at h
      injection h with hy
      subst hy
      exact weightedChoice_short _ _ _ (lookupCtx_short _ _ hb) h2
    | none =>
      simp only [h2] at h
      exact weightedChoice_short _ _ s hu h

theorem genChar2Loop_step (sess : Session) (length : ℕ) (result : List String)
    (current : Option String) (r : RandState) (h : result.length < length) :
    genChar2Loop sess length result current r =
      match (char2Next sess current r).1 with
      | some s =>
        if s ≠ "" then
          genChar2Loop sess length (result ++ [s]) (some s) (char2Next sess current r).2
        else (result, (char2Next sess current r).2)
      | none => (result, (char2Next sess current r).2) := by
  conv_lhs => rw [genChar2Loop.eq_def]
  rw [dif_pos h]
  rfl

theorem genChar3Loop_step (sess : Session) (length : ℕ) (result : List String)
    (r : RandState) (last slast : String) (tl : List String)
    (h : result.length < length) (hrev : result.reverse = last :: slast :: tl) :
    genChar3Loop sess length result r =
      match (char3Next sess slast last r).1 with
      | some s =>
        if s ≠ "" then
          genChar3Loop sess length (result ++ [s]) (char3Next sess slast last r).2
        else some (result, (char3Next sess slast last r).2)
      | none => some (result, (char3Next sess slast last r).2) := by
  conv_lhs => rw [genChar3Loop.eq_def]
  rw [dif_pos h, hrev]
  rfl

theorem genChar2Loop_short (sess : Session)
    (hu : ∀ e ∈ sess.charUnigramProbs, e.1.length ≤ 1)
    (hb : ∀ cd ∈ sess.charBigramChains, ∀ e ∈ cd.2, e.1.length ≤ 1) :
    ∀ (n length : ℕ) (result : List String) (current : Option String) (r : RandState),
      length - result.length ≤ n → (∀ s ∈ result, s.length ≤ 1) →
      ∀ s ∈ (genChar2Loop sess length result current r).1, s.length ≤ 1 := by
  intro n
  induction n with
  | zero =>
    intro length result current r hn hres s hs
    rw [genChar2Loop.eq_def, dif_neg (by omega)] at hs
    exact hres s hs
  | succ m ih =>
    intro length result current r hn hres s hs
    by_cases hlt : result.length < length
    · rw [genChar2Loop_step sess length result current r hlt] at hs
      cases hw : (char2Next sess current r).1 with
      | none =>
        simp only [hw] at hs
        exact hres s hs
      | some w =>
        simp only [hw] at hs
        by_cases hwne : w ≠ ""
        · rw [if_pos hwne] at hs
          refine ih length (result ++ [w]) (some w) (char2Next sess current r).2
            (by simp only [List.length_append, List.length_cons, List.length_nil]; omega)
            ?_ s hs
          intro x hx
          rcases List.mem_append.mp hx with h1 | h2
          · exact hres x h1
          · rw [List.mem_singleton] at h2
            subst h2
            exact char2Next_short sess current r x hu hb hw
        · rw [if_neg hwne] at hs
          exact hres s hs
    · rw [genChar2Loop.eq_def, dif_neg hlt] at hs
      exact hres s hs

theorem genChar3Loop_short (sess : Session)
    (hu : ∀ e ∈ sess.charUnigramProbs, e.1.length ≤ 1)
    (hb : ∀ cd ∈ sess.charBigramChains, ∀ e ∈ cd.2, e.1.length ≤ 1)
    (ht : ∀ cd ∈ sess.charTrigramChains, ∀ e ∈ cd.2, e.1.length ≤ 1) :
    ∀ (n length : ℕ) (result : List String) (r : RandState) (res : List String)
      (r2 : RandState),
      length - result.length ≤ n → (∀ s ∈ result, s.length ≤ 1) →
      genChar3Loop sess length result r = some (res, r2) →
      ∀ s ∈ res, s.length ≤ 1 := by
  intro n
  induction n with
  | zero =>
    intro length result r res r2 hn hres hloop
    rw [genChar3Loop.eq_def, dif_neg (by omega)] at hloop
    injection hloop with hp
    cases hp
    exact hres
  | succ m ih =>
    intro length result r res r2 hn hres hloop
    by_cases hlt : result.length < length
    · cases hrev : result.reverse with
      | nil =>
        rw [genChar3Loop.eq_def, dif_pos hlt, hrev] at hloop
        simp at hloop
      | cons last xs =>
        cases xs with
        | nil =>
          rw [genChar3Loop.eq_def, dif_pos hlt, hrev] at hloop
          simp at hloop
        | cons slast tl =>
          rw [genChar3Loop_step sess length result r last slast tl hlt hrev] at hloop
          cases hw : (char3Next sess slast last r).1 with
          | none =>
            simp only [hw] at hloop
            injection hloop with hp
            cases hp
            exact hres
          | some w =>
            simp only [hw] at hloop
            by_cases hwne : w ≠ ""
            · rw [if_pos hwne] at hloop
              refine ih length (result ++ [w]) (char3Next sess slast last r).2 res r2
                (by simp only [List.length_append, List.length_cons, List.length_nil]; omega)
                ?_ hloop
              intro x hx
              rcases List.mem_append.mp hx with h1 | h2
              · exact hres x h1
              · rw [List.mem_singleton] at h2
                subst h2
                exact char3Next_short sess slast last r x hu hb ht hw
            · rw [if_neg hwne] at hloop
              injection hloop with hp
              cases hp
              exact hres
    · rw [genChar3Loop.eq_def, dif_neg hlt] at hloop
      injection hloop with hp
      cases hp
      exact hres

theorem genChar1Go_short (sess : Session)
    (hu : ∀ e ∈ sess.charUnigramProbs, e.1.length ≤ 1) :
    ∀ (n : ℕ) (acc : List String) (r : RandState),
      (∀ s ∈ acc, s.length ≤ 1) →
      ∀ s ∈ (genChar1Go sess n acc r).1, s.length ≤ 1 := by
  intro n
  induction n with
  | zero => intro acc r hacc; exact hacc
  | succ m ih =>
    intro acc r hacc s hs
    rw [genChar1Go] at hs
    refine ih _ _ ?_ s hs
    exact truthyApp_short acc _ hacc
      (fun w hw => weightedChoice_short _ _ w hu hw)

theorem genChar1Go_count (sess : Session) :
    ∀ (n : ℕ) (acc : List String) (r : RandState),
      (genChar1Go sess n acc r).1.length ≤ acc.length + n := by
  intro n
  induction n with
  | zero => intro acc r; simp [genChar1Go]
  | succ m ih =>
    intro acc r
    rw [genChar1Go]
    calc (genChar1Go sess m (truthyApp acc (weightedChoice sess.charUnigramProbs r).1)
          (weightedChoice sess.charUnigramProbs r).2).1.length
        ≤ (truthyApp acc (weightedChoice sess.charUnigramProbs r).1).length + m := ih _ _
      _ ≤ acc.length + 1 + m := by
          have := truthyApp_length acc (weightedChoice sess.charUnigramProbs r).1
          omega
      _ = acc.length + (m + 1) := by omega

theorem joinL_emptySep_short :
    ∀ (toks : List String), (∀ s ∈ toks, s.length ≤ 1) →
      (joinL ([] : List Char) (toks.map String.data)).length ≤ toks.length := by
  intro toks
  induction toks with
  | nil => intro _; simp [joinL]
  | cons x rest ih =>
    intro h
    cases rest with
    | nil =>
      have hx : x.length ≤ 1 := h x (by simp)
      show x.data.length ≤ 1
      exact hx
    | cons y rest2 =>
      have hx : x.length ≤ 1 := h x (by simp)
      have hr := ih (fun s hs => h s (List.mem_cons_of_mem _ hs))
      simp only [List.map_cons, joinL, List.append_nil, List.length_append,
        List.length_cons] at *
      have hxd : x.data.length ≤ 1 := hx
      omega

theorem pyJoin_empty_short (toks : List String)
    (h : ∀ s ∈ toks, s.length ≤ 1) : (pyJoin "" toks).length ≤ toks.length := by
  have : (pyJoin "" toks).length = (joinL ([] : List Char) (toks.map String.data)).length := rfl
  rw [this]
  exact joinL_emptySep_short toks h

theorem genChar1_len (sess : Session)
    (hu : ∀ e ∈ sess.charUnigramProbs, e.1.length ≤ 1) (L : ℕ) (r : RandState) :
    (genChar1 sess L r).1.length ≤ L := by
  show (pyJoin "" (genChar1Go sess L [] r).1).length ≤ L
  calc (pyJoin "" (genChar1Go sess L [] r).1).length
      ≤ (genChar1Go sess L [] r).1.length :=
        pyJoin_empty_short _ (genChar1Go_short sess hu L [] r (by simp))
    _ ≤ [].length + L := genChar1Go_count sess L [] r
    _ = L := by simp

theorem genChar2_len (sess : Session) (L : ℕ) (r : RandState)
    (hu : ∀ e ∈ sess.charUnigramProbs, e.1.length ≤ 1)
    (hb : ∀ cd ∈ sess.charBigramChains, ∀ e ∈ cd.2, e.1.length ≤ 1) :
    (genChar2 sess L r).1.length ≤ L := by
  by_cases hbg : sess.charBigramChains = []
  · rw [genChar2, if_pos hbg]
    exact genChar1_len sess hu L r
  · rw [genChar2, if_neg hbg]
    show (pyJoin "" ((genChar2Loop sess L
        (truthyApp [] (weightedChoice sess.charUnigramProbs r).1)
        (weightedChoice sess.charUnigramProbs r).1
        (weightedChoice sess.charUnigramProbs r).2).1.take L)).length ≤ L
    have hshort0 : ∀ s ∈ truthyApp [] (weightedChoice sess.charUnigramProbs r).1,
        s.length ≤ 1 :=
      truthyApp_short [] _ (by simp) (fun w hw => weightedChoice_short _ _ w hu hw)
    have hloop := genChar2Loop_short sess hu hb L L
      (truthyApp [] (weightedChoice sess.charUnigramProbs r).1)
      (weightedChoice sess.charUnigramProbs r).1
      (weightedChoice sess.charUnigramProbs r).2 (by omega) hshort0
    calc (pyJoin "" ((genChar2Loop sess L
          (truthyApp [] (weightedChoice sess.charUnigramProbs r).1)
          (weightedChoice sess.charUnigramProbs r).1
          (weightedChoice sess.charUnigramProbs r).2).1.take L)).length
        ≤ ((genChar2Loop sess L
            (truthyApp [] (weightedChoice sess.charUnigramProbs r).1)
            (weightedChoice sess.charUnigramProbs r).1
            (weightedChoice sess.charUnigramProbs r).2).1.take L).length :=
          pyJoin_empty_short _ (fun s hs => hloop s (List.mem_of_mem_take hs))
      _ ≤ L := by rw [List.length_take]; exact min_le_left _ _

/-- Claim C10 (amended): when the character models hold only single
character tokens, generate char 2 always returns a string of at most L
characters, and generate char 3 returns a string of at most L
characters whenever it returns at all; the truncation to the first L
generated items guarantees the bound. -/
theorem char_generation_truncates :
    (∀ (sess : Session) (L : ℕ) (r : RandState),
      (∀ e ∈ sess.charUnigramProbs, e.1.length ≤ 1) →
      (∀ cd ∈ sess.charBigramChains, ∀ e ∈ cd.2, e.1.length ≤ 1) →
      (genChar2 sess L r).1.length ≤ L) ∧
    (∀ (sess : Session) (L : ℕ) (r r2 : RandState) (s : String),
      (∀ e ∈ sess.charUnigramProbs, e.1.length ≤ 1) →
      (∀ cd ∈ sess.charBigramChains, ∀ e ∈ cd.2, e.1.length ≤ 1) →
      (∀ cd ∈ sess.charTrigramChains, ∀ e ∈ cd.2, e.1.length ≤ 1) →
      genChar3 sess L r = some (s, r2) → s.length ≤ L) := by
  refine ⟨fun sess L r hu hb => genChar2_len sess L r hu hb, ?_⟩
  intro sess L r r2 s hu hb ht hsome
  rw [genChar3] at hsome
  by_cases htr : sess.charTrigramChains = []
  · rw [if_pos htr] at hsome
    injection hsome with hp
    have hs1 : (genChar2 sess L r).1 = s := congrArg Prod.fst hp
    rw [← hs1]
    exact genChar2_len sess L r hu hb
  · rw [if_neg htr] at hsome
    cases hloop : genChar3Loop sess L
        (truthyApp (truthyApp [] (weightedChoice sess.charUnigramProbs r).1)
          (weightedChoice sess.charUnigramProbs
            (weightedChoice sess.charUnigramProbs r).2).1)
        (weightedChoice sess.charUnigramProbs
          (weightedChoice sess.charUnigramProbs r).2).2 with
    | none =>
      simp only [hloop] at hsome
      exact Option.noConfusion hsome
    | some p =>
      simp only [hloop] at hsome
      injection hsome with hp
      have hs1 : pyJoin "" (p.1.take L) = s := congrArg Prod.fst hp
      rw [← hs1]
      have hseed : ∀ x ∈ truthyApp (truthyApp []
          (weightedChoice sess.charUnigramProbs r).1)
          (weightedChoice sess.charUnigramProbs
            (weightedChoice sess.charUnigramProbs r).2).1, x.length ≤ 1 :=
        truthyApp_short _ _
          (truthyApp_short [] _ (by simp)
            (fun w hw => weightedChoice_short _ _ w hu hw))
          (fun w hw => weightedChoice_short _ _ w hu hw)
      have hshort : ∀ x ∈ p.1, x.length ≤ 1 :=
        genChar3Loop_short sess hu hb ht L L _ _ p.1 p.2 (by omega) hseed
          (by rw [hloop])
      calc (pyJoin "" (p.1.take L)).length
          ≤ (p.1.take L).length :=
            pyJoin_empty_short _ (fun x hx => hshort x (List.mem_of_mem_take hx))
        _ ≤ L := by rw [List.length_take]; exact min_le_left _ _

/-- Witness for C10 (amended) at concrete sessions: the order-2 bound
with a populated bigram chain, and the order-3 bound on a normal
return. -/
theorem char_generation_truncates_witness :
    (genChar2 sessC4miss 3 ⟨[0]⟩).1.length ≤ 3 ∧
    (genChar2 sessC5 2 ⟨[]⟩).1.length ≤ 2 :=
  ⟨char_generation_truncates.1 sessC4miss 3 ⟨[0]⟩ (by decide)
      (by with_unfolding_all decide),
   char_generation_truncates.2 sessC5 2 ⟨[]⟩ (genChar2 sessC5 2 ⟨[]⟩).2
      (genChar2 sessC5 2 ⟨[]⟩).1 (by decide) (by decide) (by decide)
      (by rw [genChar3, if_pos (show sessC5.charTrigramChains = [] from rfl)])⟩

/-- Counterexample for C10 as frozen: at a model state with a non-empty
trigram chain and an empty unigram distribution, generate char 3 with
length 1 produces no seed characters and indexes result[-2] on a list
that is too short: the call raises IndexError (modelled as none)
instead of returning a string. -/
theorem char3_short_seed_raises : genChar3 sessC4hit 1 ⟨[]⟩ = none := by
  have hne : ¬ sessC4hit.charTrigramChains = [] := by with_unfolding_all decide
  rw [genChar3, if_neg hne]
  have huni : sessC4hit.charUnigramProbs = [] := rfl
  simp only [huni]
  simp [weightedChoice, truthyApp, genChar3Loop.eq_def]
